import Mathlib

/-!
Verification of the semantic vector search core described in `spec.md`
against `src/semantic_vector_search.py`.

The idealized real-number model (`SVS` namespace) embeds the pipeline of the
script: key embeddings are normalized rows (line 81), a query embedding is
normalized the same way (lines 94-95), the flat index answers top-k
inner-product queries, and the read loop filters scores below the relevance
threshold with `if score < 0.3: continue` (lines 99-101).  The top-k selection
itself happens inside the faiss library (`IndexFlatIP.search`), whose code is
not part of this repository; it is modelled from the spec, section 4.3:
score every entry by dot product with the query, order by descending score
with ties broken by lower insertion index, return the first `k`.

A second model (`SVSF` namespace, further below) refines scalars to an
IEEE-754-style value domain with NaN and infinities, in order to evaluate
the script's unguarded normalization on a degenerate (zero-norm) vector,
which it silently turns into NaN components.
-/

namespace SVS

/-- A vector is an ordered sequence of real components (source: numpy float32
rows, idealized to exact reals). -/
abbrev Vec := List ℝ

/-- Dot product of two vectors, componentwise (source: the inner product that
`faiss.IndexFlatIP` computes between the query row and each stored row). -/
noncomputable def dot : Vec → Vec → ℝ
  | [], _ => 0
  | _ :: _, [] => 0
  | a :: as, b :: bs => a * b + dot as bs

/-- Squared L2 norm of a vector. -/
noncomputable def normSq (v : Vec) : ℝ := dot v v

/-- L2 norm of a vector (source: `np.linalg.norm(row)`). -/
noncomputable def norm (v : Vec) : ℝ := Real.sqrt (normSq v)

/-- Componentwise difference of two vectors (helper for the geometry of
unit vectors; not itself a source operation). -/
noncomputable def sub : Vec → Vec → Vec
  | a :: as, b :: bs => (a - b) :: sub as bs
  | _, _ => []

/-- Normalization: divide every component by the vector's L2 norm (source:
`key_embeddings /= np.linalg.norm(key_embeddings, axis=1, keepdims=True)`,
line 81, and the same for the query embedding, line 95). -/
noncomputable def normalize (v : Vec) : Vec := v.map (fun x => x / norm v)

/-- Pair every element of a list with its 0-based position, starting at `n`
(the insertion index of each stored entry). -/
def indexed {α : Type} : ℕ → List α → List (ℕ × α)
  | _, [] => []
  | n, a :: as => (n, a) :: indexed (n + 1) as

/-- Modelled from the spec: the ordering used by the flat index on scored
candidates (spec, section 4.3): a candidate comes before another when its
score is higher, or when the scores are exactly equal and its insertion
index is lower.  The faiss top-k selection code is not in this repository. -/
def rOrder (a b : ℕ × ℝ) : Prop := b.2 < a.2 ∨ (a.2 = b.2 ∧ a.1 ≤ b.1)

noncomputable instance : DecidableRel rOrder := fun a b => by
  unfold rOrder; infer_instance

instance : IsTotal (ℕ × ℝ) rOrder where
  total a b := by
    rcases lt_trichotomy a.2 b.2 with h | h | h
    · exact Or.inr (Or.inl h)
    · rcases Nat.le_total a.1 b.1 with hi | hi
      · exact Or.inl (Or.inr ⟨h, hi⟩)
      · exact Or.inr (Or.inr ⟨h.symm, hi⟩)
    · exact Or.inl (Or.inl h)

instance : IsTrans (ℕ × ℝ) rOrder where
  trans a b c hab hbc := by
    rcases hab with hab | ⟨hab, hab'⟩ <;> rcases hbc with hbc | ⟨hbc, hbc'⟩
    · exact Or.inl (hbc.trans hab)
    · exact Or.inl (hbc ▸ hab)
    · exact Or.inl (hab ▸ hbc)
    · exact Or.inr ⟨hab.trans hbc, hab'.trans hbc'⟩

instance : IsAntisymm (ℕ × ℝ) rOrder where
  antisymm a b hab hba := by
    rcases hab with hab | ⟨hab, hab'⟩
    · rcases hba with hba | ⟨hba, _⟩
      · exact absurd hab (lt_asymm hba)
      · exact absurd hab (hba ▸ lt_irrefl _)
    · rcases hba with hba | ⟨_, hba'⟩
      · exact absurd hba (hab ▸ lt_irrefl _)
      · exact Prod.ext (Nat.le_antisymm hab' hba') hab

/-- Modelled from the spec: exact top-k search of the flat index (spec,
section 4.3: score every entry with the dot product, order by descending
score with ties broken by lower insertion index, return the first `k`).
The corresponding code, `faiss_index.search(query_embedding, topN)`
(line 97), lives in the faiss library, not in this repository. -/
noncomputable def searchIdx (store : List Vec) (q : Vec) (k : ℕ) : List (ℕ × ℝ) :=
  (List.insertionSort rOrder (indexed 0 (store.map (fun v => dot q v)))).take k

/-- Relevance filter: keep a scored result unless its score is strictly
below the threshold (source: `if score < 0.3: continue`, lines 100-101). -/
noncomputable def filterResults (m : ℝ) (l : List (ℕ × ℝ)) : List (ℕ × ℝ) :=
  l.filter (fun p => !decide (p.2 < m))

/-- The immutable state read by the query loop: the key labels and the
normalized key embeddings held by the faiss index (source: the globals
`key_list`, `key_embeddings` / `faiss_index`). -/
structure SearchState where
  keyList : List String
  store : List Vec

/-- Build phase (source: lines 79-85): keep the labels in insertion order and
normalize every raw embedding row before adding it to the index. -/
noncomputable def buildState (pairs : List (String × Vec)) : SearchState :=
  ⟨pairs.map Prod.fst, pairs.map (fun p => normalize p.2)⟩

/-- One query through the pipeline (source: lines 94-101): normalize the raw
query embedding, run the top-`topN` search, filter by the threshold. -/
noncomputable def queryResults (st : SearchState) (rawQ : Vec) (topN : ℕ) (m : ℝ) :
    List (ℕ × ℝ) :=
  filterResults m (searchIdx st.store (normalize rawQ) topN)

/-- One iteration of the read loop as a state transformer (source: lines
89-106).  The loop body reads `key_list`, `faiss_index` and `data` and
assigns none of them, so the state component is returned unchanged. -/
noncomputable def queryStep (st : SearchState) (rawQ : Vec) (topN : ℕ) (m : ℝ) :
    SearchState × List (ℕ × ℝ) :=
  (st, queryResults st rawQ topN m)

/-- The number of candidates the source loop requests from the index
(source: `topN = 3`, line 96). -/
def topNDefault : ℕ := 3

/-- The relevance threshold of the source loop (source: `score < 0.3`,
line 100). -/
noncomputable def minScoreDefault : ℝ := 3 / 10

/-- Dimension of a store: the length of its first vector (spec, section 4.2:
the group's `D` is the first vector's length). -/
def dimension (store : List Vec) : ℕ := (store.headD []).length

/-- Modelled from the spec: the three error kinds of the core (spec,
section 7).  The script itself raises none of them. -/
inductive SearchError where
  | degenerateVector
  | dimensionMismatch
  | emptyIndex
deriving DecidableEq

/-- Modelled from the spec: `search` with its guards (spec, sections 4.3 and
7): an empty store fails with `EmptyIndexError`, a query whose length differs
from the store's dimension fails with `DimensionMismatchError`, otherwise the
exact top-k result is returned.  The corresponding checks live inside the
faiss library, not in this repository. -/
noncomputable def searchChecked (store : List Vec) (q : Vec) (k : ℕ) :
    Except SearchError (List (ℕ × ℝ)) :=
  if store.isEmpty then .error .emptyIndex
  else if q.length ≠ dimension store then .error .dimensionMismatch
  else .ok (searchIdx store q k)

/-- Modelled from the spec: the checked query pipeline (spec, section 4.4):
first normalize the raw query, propagating `DegenerateVectorError` for a
zero-norm vector, then call the flat index with `k = top_n`, then filter by
`min_score`. -/
noncomputable def queryChecked (store : List Vec) (rawQ : Vec) (topN : ℕ) (m : ℝ) :
    Except SearchError (List (ℕ × ℝ)) :=
  if normSq rawQ = 0 then .error .degenerateVector
  else (searchChecked store (normalize rawQ) topN).map (filterResults m)

/-! Helper lemmas about `indexed`. -/

theorem indexed_length {α : Type} (n : ℕ) (l : List α) :
    (indexed n l).length = l.length := by
  induction l generalizing n with
  | nil => rfl
  | cons a as ih => simp [indexed, ih]

theorem mem_indexed {α : Type} {n : ℕ} {l : List α} {p : ℕ × α} :
    p ∈ indexed n l ↔ ∃ i, ∃ _ : i < l.length, p.1 = n + i ∧ l[i]? = some p.2 := by
  induction l generalizing n with
  | nil => simp [indexed]
  | cons a as ih =>
    simp only [indexed, List.mem_cons, ih]
    constructor
    · rintro (rfl | ⟨i, hi, h1, h2⟩)
      · exact ⟨0, by simp, by simp, by simp⟩
      · exact ⟨i + 1, by simpa using Nat.succ_lt_succ hi, by omega, by simpa using h2⟩
    · rintro ⟨i, hi, h1, h2⟩
      cases i with
      | zero =>
        left
        obtain ⟨p1, p2⟩ := p
        simp only [List.getElem?_cons_zero, Option.some.injEq] at h2
        simp only [Nat.add_zero] at h1
        simp [h1, ← h2]
      | succ j =>
        right
        exact ⟨j, by simpa using hi, by omega, by simpa using h2⟩

theorem getElem_mem_indexed {α : Type} {l : List α} {i : ℕ} (hi : i < l.length) (n : ℕ) :
    (n + i, l[i]) ∈ indexed n l := by
  exact mem_indexed.mpr ⟨i, hi, rfl, by simp [List.getElem?_eq_getElem hi]⟩

theorem indexed_pairwise_lt {α : Type} (n : ℕ) (l : List α) :
    (indexed n l).Pairwise (fun a b => a.1 < b.1) := by
  induction l generalizing n with
  | nil => exact List.Pairwise.nil
  | cons a as ih =>
    refine List.Pairwise.cons ?_ (ih (n + 1))
    intro p hp
    rcases mem_indexed.mp hp with ⟨i, _, h1, _⟩
    omega

/-! Helper lemmas about the vector algebra. -/

theorem dot_nonneg_self : ∀ v : Vec, 0 ≤ dot v v
  | [] => le_refl 0
  | a :: as => by
    have := dot_nonneg_self as
    simp only [dot]
    nlinarith [mul_self_nonneg a]

theorem normSq_nonneg (v : Vec) : 0 ≤ normSq v := dot_nonneg_self v

theorem norm_nonneg (v : Vec) : 0 ≤ norm v := Real.sqrt_nonneg _

theorem normSq_sub : ∀ u v : Vec, u.length = v.length →
    normSq (sub u v) = normSq u - 2 * dot u v + normSq v := by
  intro u
  induction u with
  | nil =>
    intro v hlen
    cases v with
    | nil => simp [normSq, sub, dot]
    | cons y ys => exact absurd hlen (by simp)
  | cons x xs ih =>
    intro v hlen
    cases v with
    | nil => exact absurd hlen (by simp)
    | cons y ys =>
      have hxy := ih ys (by simpa using hlen)
      simp only [normSq, sub, dot] at hxy ⊢
      ring_nf
      ring_nf at hxy
      linarith

theorem eq_of_normSq_sub_eq_zero : ∀ u v : Vec, u.length = v.length →
    normSq (sub u v) = 0 → u = v := by
  intro u
  induction u with
  | nil =>
    intro v hlen _
    cases v with
    | nil => rfl
    | cons y ys => exact absurd hlen (by simp)
  | cons x xs ih =>
    intro v hlen hz
    cases v with
    | nil => exact absurd hlen (by simp)
    | cons y ys =>
      simp only [normSq, sub, dot] at hz
      have h1 : 0 ≤ (x - y) * (x - y) := mul_self_nonneg _
      have h2 : 0 ≤ dot (sub xs ys) (sub xs ys) := dot_nonneg_self _
      have hxy : x = y := by nlinarith
      have htail : xs = ys := ih ys (by simpa using hlen) (by simp only [normSq]; nlinarith)
      rw [hxy, htail]

theorem dot_lt_one_of_ne {u v : Vec} (hlen : u.length = v.length)
    (hu : normSq u = 1) (hv : normSq v = 1) (hne : u ≠ v) : dot u v < 1 := by
  have hsub := normSq_sub u v hlen
  have hpos : normSq (sub u v) ≠ 0 := fun h => hne (eq_of_normSq_sub_eq_zero u v hlen h)
  have hnn : 0 ≤ normSq (sub u v) := normSq_nonneg _
  have : 0 < normSq (sub u v) := lt_of_le_of_ne hnn (Ne.symm hpos)
  rw [hsub, hu, hv] at this
  linarith

theorem normSq_map_div (v : Vec) (c : ℝ) :
    normSq (v.map (fun x => x / c)) = normSq v / c ^ 2 := by
  induction v with
  | nil => simp [normSq, dot]
  | cons a as ih =>
    simp only [normSq, List.map_cons, dot] at ih ⊢
    rw [ih]
    by_cases hc : c = 0
    · simp [hc]
    · field_simp
      ring

theorem length_normalize (v : Vec) : (normalize v).length = v.length := by
  simp [normalize]

theorem normSq_normalize {v : Vec} (hv : normSq v ≠ 0) : normSq (normalize v) = 1 := by
  have hnn : 0 ≤ normSq v := normSq_nonneg v
  have hsq : norm v ^ 2 = normSq v := Real.sq_sqrt hnn
  simp only [normalize, normSq_map_div, hsq]
  field_simp

theorem norm_normalize {v : Vec} (hv : normSq v ≠ 0) : norm (normalize v) = 1 := by
  simp only [norm, normSq_normalize hv, Real.sqrt_one]

theorem dot_self_normalize {v : Vec} (hv : normSq v ≠ 0) :
    dot (normalize v) (normalize v) = 1 := normSq_normalize hv

/-! Helper lemmas about the ranked candidate list. -/

theorem pairwise_conj {α : Type} {R S : α → α → Prop} :
    ∀ {l : List α}, l.Pairwise R → l.Pairwise S → l.Pairwise (fun a b => R a b ∧ S a b)
  | [], _, _ => List.Pairwise.nil
  | _ :: _, List.Pairwise.cons hR hRt, List.Pairwise.cons hS hSt =>
    List.Pairwise.cons (fun b hb => ⟨hR b hb, hS b hb⟩) (pairwise_conj hRt hSt)

/-- The candidate list the index ranks for a query: every stored vector,
scored by dot product and tagged with its insertion position. -/
noncomputable def candidates (store : List Vec) (q : Vec) : List (ℕ × ℝ) :=
  indexed 0 (store.map (fun v => dot q v))

theorem searchIdx_eq_take (store : List Vec) (q : Vec) (k : ℕ) :
    searchIdx store q k = (List.insertionSort rOrder (candidates store q)).take k := rfl

theorem candidates_fst_ne (store : List Vec) (q : Vec) :
    (candidates store q).Pairwise (fun a b => a.1 ≠ b.1) :=
  (indexed_pairwise_lt 0 _).imp Nat.ne_of_lt

theorem sort_candidates_pairwise (store : List Vec) (q : Vec) :
    (List.insertionSort rOrder (candidates store q)).Pairwise
      (fun a b => rOrder a b ∧ a.1 ≠ b.1) := by
  have hsorted : (List.insertionSort rOrder (candidates store q)).Sorted rOrder :=
    List.sorted_insertionSort rOrder _
  have hperm := List.perm_insertionSort rOrder (candidates store q)
  have hne :=
    (List.Perm.pairwise_iff (fun h => Ne.symm h) hperm).mpr (candidates_fst_ne store q)
  exact pairwise_conj hsorted hne

theorem head?_take {α : Type} {k : ℕ} (hk : k ≠ 0) (l : List α) :
    (l.take k).head? = l.head? := by
  cases k with
  | zero => exact absurd rfl hk
  | succ n => cases l <;> rfl

/-- C3: for every query, the sequence returned by the search is non-increasing
in score (every earlier result scores at least as high as every later one),
and whenever two returned results have exactly equal scores, the one with the
lower insertion index comes first. -/
theorem claim_C3_search_ranking (store : List Vec) (q : Vec) (k : ℕ) :
    (searchIdx store q k).Pairwise
      (fun a b => b.2 ≤ a.2 ∧ (a.2 = b.2 → a.1 < b.1)) := by
  have h := (sort_candidates_pairwise store q).sublist (List.take_sublist k _)
  rw [searchIdx_eq_take]
  refine h.imp ?_
  rintro a b ⟨hr | ⟨heq, hle⟩, hne⟩
  · exact ⟨le_of_lt hr, fun he => absurd hr (by rw [he]; exact lt_irrefl _)⟩
  · exact ⟨le_of_eq heq.symm, fun _ => lt_of_le_of_ne hle hne⟩

theorem searchIdx_length (store : List Vec) (q : Vec) (k : ℕ) :
    (searchIdx store q k).length = min k store.length := by
  rw [searchIdx_eq_take, List.length_take,
    (List.perm_insertionSort rOrder _).length_eq]
  simp [candidates, indexed_length]

theorem mem_searchIdx {store : List Vec} {q : Vec} {k : ℕ} {p : ℕ × ℝ}
    (hp : p ∈ searchIdx store q k) :
    ∃ v, store[p.1]? = some v ∧ p.2 = dot q v := by
  rw [searchIdx_eq_take] at hp
  have hp' := (List.perm_insertionSort rOrder _).mem_iff.mp
    ((List.take_sublist k _).mem hp)
  rcases mem_indexed.mp hp' with ⟨i, hi, h1, h2⟩
  simp only [Nat.zero_add] at h1
  have hi' : i < store.length := by simpa using hi
  rw [List.getElem?_map, List.getElem?_eq_getElem hi'] at h2
  simp only [Option.map_some', Option.some.injEq] at h2
  exact ⟨store[i], by rw [h1, List.getElem?_eq_getElem hi'], h2.symm⟩

/-- C4: for every query against a built index, the search returns a sequence
of exactly `min k entry_count` scored results, and every result refers to a
stored entry by a valid insertion index (no padding entries). -/
theorem claim_C4_search_result_count (store : List Vec) (q : Vec) (k : ℕ) :
    (searchIdx store q k).length = min k store.length ∧
      ∀ p ∈ searchIdx store q k, p.1 < store.length := by
  refine ⟨searchIdx_length store q k, fun p hp => ?_⟩
  rcases mem_searchIdx hp with ⟨v, hv, _⟩
  by_contra h
  rw [List.getElem?_eq_none (le_of_not_lt h)] at hv
  exact Option.noConfusion hv

/-- C2: for every query with relevance cutoff `m`, every result the pipeline
returns has score at least `m`; no candidate among the top-`topN` with score
at least `m` is dropped; and the filter returns a sublist of the ranked
sequence, so it never reorders results — it only removes below-threshold
ones. -/
theorem claim_C2_threshold_semantics (st : SearchState) (rawQ : Vec) (topN : ℕ) (m : ℝ) :
    (∀ p ∈ queryResults st rawQ topN m, m ≤ p.2) ∧
      (∀ p ∈ searchIdx st.store (normalize rawQ) topN,
        m ≤ p.2 → p ∈ queryResults st rawQ topN m) ∧
      List.Sublist (queryResults st rawQ topN m)
        (searchIdx st.store (normalize rawQ) topN) := by
  refine ⟨?_, ?_, List.filter_sublist _⟩
  · intro p hp
    simp only [queryResults, filterResults, List.mem_filter, Bool.not_eq_true',
      decide_eq_false_iff_not, not_lt] at hp
    exact hp.2
  · intro p hp hm
    simp only [queryResults, filterResults, List.mem_filter, Bool.not_eq_true',
      decide_eq_false_iff_not, not_lt]
    exact ⟨hp, hm⟩

/-- C9: every scored result the pipeline reports refers, through its index,
to exactly the entry inserted at that position: the label looked up at the
index is that entry's label, and the score is the dot product of the
normalized query with that same entry's normalized vector. -/
theorem claim_C9_label_score_alignment (pairs : List (String × Vec)) (rawQ : Vec)
    (topN : ℕ) (m : ℝ) :
    ∀ p ∈ queryResults (buildState pairs) rawQ topN m,
      ∃ pr, pairs[p.1]? = some pr ∧
        (buildState pairs).keyList[p.1]? = some pr.1 ∧
        p.2 = dot (normalize rawQ) (normalize pr.2) := by
  intro p hp
  have hp' : p ∈ searchIdx (buildState pairs).store (normalize rawQ) topN := by
    simp only [queryResults, filterResults] at hp
    exact List.mem_of_mem_filter hp
  rcases mem_searchIdx hp' with ⟨v, hv, hscore⟩
  rw [show (buildState pairs).store = pairs.map (fun pr => normalize pr.2) from rfl,
    List.getElem?_map] at hv
  cases hpr : pairs[p.1]? with
  | none => rw [hpr] at hv; exact absurd hv (by simp)
  | some pr =>
    rw [hpr] at hv
    simp only [Option.map_some', Option.some.injEq] at hv
    refine ⟨pr, rfl, ?_, by rw [hscore, ← hv]⟩
    rw [show (buildState pairs).keyList = pairs.map Prod.fst from rfl,
      List.getElem?_map, hpr]
    rfl

/-- Witness for C9 at a one-entry store queried with its own raw vector. -/
theorem claim_C9_witness :
    ∃ pr, ([("A", ([1] : Vec))] : List (String × Vec))[(0 : ℕ)]? = some pr ∧
      (buildState [("A", ([1] : Vec))]).keyList[(0 : ℕ)]? = some pr.1 ∧
      (1 : ℝ) = dot (normalize [1]) (normalize pr.2) := by
  have hs : dot (normalize ([1] : Vec)) (normalize ([1] : Vec)) = 1 :=
    dot_self_normalize (by norm_num [normSq, dot])
  have hqr : queryResults (buildState [("A", ([1] : Vec))]) [1] 3 (3 / 10) = [(0, 1)] := by
    show filterResults (3 / 10)
        [((0 : ℕ), dot (normalize ([1] : Vec)) (normalize ([1] : Vec)))] = [(0, 1)]
    rw [hs, filterResults, List.filter_cons]
    have hc : decide (((0 : ℕ), (1 : ℝ)).2 < 3 / 10) = false := decide_eq_false (by norm_num)
    rw [hc]
    rfl
  exact claim_C9_label_score_alignment [("A", [1])] [1] 3 (3 / 10) (0, 1)
    (by rw [hqr]; exact List.mem_singleton_self _)

/-- C7: the query pipeline is deterministic: its output is a function of the
index state and the query parameters alone (two states with equal labels and
equal stored vectors give identical ordered outputs, ties included), a query
leaves the state unchanged, and a repeated identical query therefore returns
the identical ordered result sequence. -/
theorem claim_C7_determinism (st₁ st₂ : SearchState) (rawQ : Vec) (topN : ℕ) (m : ℝ)
    (hk : st₁.keyList = st₂.keyList) (hs : st₁.store = st₂.store) :
    queryStep st₁ rawQ topN m = queryStep st₂ rawQ topN m ∧
      (queryStep st₁ rawQ topN m).1 = st₁ ∧
      (queryStep (queryStep st₁ rawQ topN m).1 rawQ topN m).2 =
        (queryStep st₁ rawQ topN m).2 := by
  obtain ⟨k₁, s₁⟩ := st₁
  obtain ⟨k₂, s₂⟩ := st₂
  cases hk
  cases hs
  exact ⟨rfl, rfl, rfl⟩

/-- Witness for C7 at a concrete one-entry index. -/
theorem claim_C7_witness :
    queryStep ⟨["A"], [[1]]⟩ [1] 3 (3 / 10) = queryStep ⟨["A"], [[1]]⟩ [1] 3 (3 / 10) ∧
      (queryStep ⟨["A"], [[1]]⟩ [1] 3 (3 / 10)).1 = ⟨["A"], [[1]]⟩ ∧
      (queryStep (queryStep ⟨["A"], [[1]]⟩ [1] 3 (3 / 10)).1 [1] 3 (3 / 10)).2 =
        (queryStep ⟨["A"], [[1]]⟩ [1] 3 (3 / 10)).2 :=
  claim_C7_determinism ⟨["A"], [[1]]⟩ ⟨["A"], [[1]]⟩ [1] 3 (3 / 10) rfl rfl

/-! Helper lemmas for the self-similarity property. -/

theorem head?_insertionSort_of_max {l : List (ℕ × ℝ)} {x : ℕ × ℝ} (hx : x ∈ l)
    (hmax : ∀ y ∈ l, y ≠ x → y.2 < x.2) :
    (List.insertionSort rOrder l).head? = some x := by
  have hperm := List.perm_insertionSort rOrder l
  have hsorted := List.sorted_insertionSort rOrder l
  cases hout : List.insertionSort rOrder l with
  | nil =>
    have : x ∈ List.insertionSort rOrder l := hperm.mem_iff.mpr hx
    rw [hout] at this
    exact absurd this (List.not_mem_nil x)
  | cons a t =>
    by_cases hax : a = x
    · rw [hax]
      rfl
    · have ha : a ∈ l := hperm.mem_iff.mp (by rw [hout]; exact List.mem_cons_self a t)
      have hlt : a.2 < x.2 := hmax a ha hax
      have hxt : x ∈ t := by
        have hmem : x ∈ a :: t := by rw [← hout]; exact hperm.mem_iff.mpr hx
        rcases List.mem_cons.mp hmem with h | h
        · exact absurd h.symm hax
        · exact h
      have hr : rOrder a x := by
        rw [hout] at hsorted
        exact (List.pairwise_cons.mp hsorted).1 x hxt
      rcases hr with hr | ⟨heq, _⟩
      · exact absurd hr (lt_asymm hlt)
      · exact absurd heq (ne_of_lt hlt)

theorem head?_filterResults {m : ℝ} {l : List (ℕ × ℝ)} {x : ℕ × ℝ}
    (hl : l.head? = some x) (hx : ¬x.2 < m) :
    (filterResults m l).head? = some x := by
  cases l with
  | nil => exact absurd hl (by simp)
  | cons a t =>
    simp only [List.head?_cons, Option.some.injEq] at hl
    subst hl
    simp [filterResults, List.filter_cons, hx]

/-- C8: querying with the store's own raw (pre-normalization) vector for
entry `i` returns entry `i` ranked first with score exactly 1, provided no
other stored (normalized) entry is identical to entry `i`'s. -/
theorem claim_C8_self_similarity (pairs : List (String × Vec)) (i L topN : ℕ) (m : ℝ)
    (hi : i < pairs.length)
    (hL : ∀ pr ∈ pairs, pr.2.length = L)
    (hnz : ∀ pr ∈ pairs, normSq pr.2 ≠ 0)
    (hdist : ∀ j, ∀ hj : j < pairs.length, j ≠ i →
      normalize (pairs[j]).2 ≠ normalize (pairs[i]).2)
    (htop : 1 ≤ topN) (hm : m ≤ 1) :
    (queryResults (buildState pairs) (pairs[i]).2 topN m).head? = some (i, 1) := by
  have hmemi : pairs[i] ∈ pairs := List.getElem_mem hi
  have hscores_len :
      i < ((pairs.map (fun pr => normalize pr.2)).map
        (fun v => dot (normalize (pairs[i]).2) v)).length := by
    simpa using hi
  -- the candidate for entry i scores exactly 1
  have hxmem : ((i : ℕ), (1 : ℝ)) ∈
      candidates (pairs.map (fun pr => normalize pr.2)) (normalize (pairs[i]).2) := by
    apply mem_indexed.mpr
    refine ⟨i, hscores_len, by omega, ?_⟩
    rw [List.getElem?_eq_getElem hscores_len]
    simp only [List.getElem_map, Option.some.injEq]
    exact dot_self_normalize (hnz _ hmemi)
  -- every other candidate scores strictly below 1
  have hmax : ∀ y ∈ candidates (pairs.map (fun pr => normalize pr.2))
      (normalize (pairs[i]).2), y ≠ (i, 1) → y.2 < 1 := by
    intro y hy hne
    rcases mem_indexed.mp hy with ⟨j, hj, hy1, hy2⟩
    simp only [Nat.zero_add] at hy1
    have hjlt : j < pairs.length := by simpa using hj
    rw [List.getElem?_eq_getElem hj] at hy2
    simp only [List.getElem_map, Option.some.injEq] at hy2
    by_cases hji : j = i
    · exfalso
      apply hne
      subst hji
      have h1 : y.2 = 1 := by
        rw [← hy2]
        exact dot_self_normalize (hnz _ hmemi)
      exact Prod.ext (by rw [hy1]) h1
    · have hmemj : pairs[j] ∈ pairs := List.getElem_mem hjlt
      have hne' : normalize (pairs[i]).2 ≠ normalize (pairs[j]).2 :=
        fun h => hdist j hjlt hji h.symm
      have hlen : (normalize (pairs[i]).2).length = (normalize (pairs[j]).2).length := by
        rw [length_normalize, length_normalize, hL _ hmemi, hL _ hmemj]
      rw [← hy2]
      exact dot_lt_one_of_ne hlen (normSq_normalize (hnz _ hmemi))
        (normSq_normalize (hnz _ hmemj)) hne'
  -- assemble: the maximum is first, the truncation keeps it, the filter keeps it
  have hsort := head?_insertionSort_of_max hxmem hmax
  have htake : (searchIdx (pairs.map (fun pr => normalize pr.2))
      (normalize (pairs[i]).2) topN).head? = some (i, 1) := by
    rw [searchIdx_eq_take, head?_take (by omega), hsort]
  exact head?_filterResults htake (not_lt.mpr hm)

/-- Witness for C8: a two-entry store built from `[1, 0]` and `[0, 1]`;
querying with the first raw vector returns entry 0 first with score 1. -/
theorem claim_C8_witness :
    (queryResults (buildState [("A", ([1, 0] : Vec)), ("B", [0, 1])])
      [1, 0] 2 (3 / 10)).head? = some (0, 1) := by
  have hn1 : norm ([1, 0] : Vec) = 1 := by
    simp [norm, normSq, dot]
  have hn0 : norm ([0, 1] : Vec) = 1 := by
    simp [norm, normSq, dot]
  exact claim_C8_self_similarity [("A", ([1, 0] : Vec)), ("B", [0, 1])] 0 2 2 (3 / 10)
    (by simp)
    (by intro pr hpr; rcases List.mem_cons.mp hpr with rfl | hpr
        · rfl
        · rcases List.mem_cons.mp hpr with rfl | hpr
          · rfl
          · exact absurd hpr (List.not_mem_nil _))
    (by intro pr hpr; rcases List.mem_cons.mp hpr with rfl | hpr
        · norm_num [normSq, dot]
        · rcases List.mem_cons.mp hpr with rfl | hpr
          · norm_num [normSq, dot]
          · exact absurd hpr (List.not_mem_nil _))
    (by intro j hj hne
        have hj2 : j < 2 := by simpa using hj
        interval_cases j
        · exact absurd rfl hne
        · show normalize [0, 1] ≠ normalize [1, 0]
          simp only [normalize, hn0, hn1, List.map_cons, List.map_nil, div_one]
          norm_num)
    (by norm_num) (by norm_num)

/-- C5: after a successful build (no degenerate raw vector), every stored
entry's vector has unit L2 norm, and the invariant is preserved by every
subsequent operation: a query step returns the state unchanged. -/
theorem claim_C5_unit_norm_invariant (pairs : List (String × Vec))
    (hnz : ∀ pr ∈ pairs, normSq pr.2 ≠ 0) :
    (∀ v ∈ (buildState pairs).store, norm v = 1) ∧
      ∀ rawQ topN m, (queryStep (buildState pairs) rawQ topN m).1 = buildState pairs := by
  constructor
  · intro v hv
    rcases List.mem_map.mp hv with ⟨pr, hpr, rfl⟩
    exact norm_normalize (hnz pr hpr)
  · intro _ _ _
    rfl

/-- Witness for C5 at a concrete store built from the raw vector `[3, 4]`. -/
theorem claim_C5_witness :
    (∀ v ∈ (buildState [("A", [3, 4])]).store, norm v = 1) ∧
      ∀ rawQ topN m,
        (queryStep (buildState [("A", [3, 4])]) rawQ topN m).1 =
          buildState [("A", [3, 4])] :=
  claim_C5_unit_norm_invariant [("A", [3, 4])] (by
    intro pr hpr
    simp only [List.mem_singleton] at hpr
    subst hpr
    norm_num [normSq, dot])

/-- C6 (amended): with a nonempty index, calling the checked search with a
vector of the wrong length always fails with `DimensionMismatchError`; the
checked query pipeline fails with `DimensionMismatchError` when the vector is
not degenerate, and with `DegenerateVectorError` when it is (the pipeline
normalizes before the index checks the dimension); in every case the call
fails, so the vector is never silently truncated or padded into a result. -/
theorem claim_C6_dimension_guard (store : List Vec) (q : Vec) (k topN : ℕ) (m : ℝ)
    (hne : store ≠ []) (hlen : q.length ≠ dimension store) :
    searchChecked store q k = .error .dimensionMismatch ∧
      (normSq q ≠ 0 → queryChecked store q topN m = .error .dimensionMismatch) ∧
      (normSq q = 0 → queryChecked store q topN m = .error .degenerateVector) := by
  have hne' : store.isEmpty = false := by
    cases store with
    | nil => exact absurd rfl hne
    | cons a t => rfl
  refine ⟨?_, ?_, ?_⟩
  · simp [searchChecked, hne', hlen]
  · intro hq
    have hlen' : (normalize q).length ≠ dimension store := by rwa [length_normalize]
    simp [queryChecked, hq, searchChecked, hne', hlen', Except.map]
  · intro hq
    simp [queryChecked, hq]

/-- Witness for C6 at a concrete two-dimensional one-entry index queried with
a three-component vector. -/
theorem claim_C6_witness :
    searchChecked [[(1 : ℝ), 0]] [1, 2, 3] 5 = .error .dimensionMismatch ∧
      (normSq [1, 2, 3] ≠ 0 →
        queryChecked [[(1 : ℝ), 0]] [1, 2, 3] 3 (3 / 10) = .error .dimensionMismatch) ∧
      (normSq [1, 2, 3] = 0 →
        queryChecked [[(1 : ℝ), 0]] [1, 2, 3] 3 (3 / 10) = .error .degenerateVector) :=
  claim_C6_dimension_guard [[(1 : ℝ), 0]] [1, 2, 3] 5 3 (3 / 10) (by simp)
    (by simp [dimension])

/-- C6 counterexample: a degenerate vector of the wrong length makes the
checked query pipeline fail with `DegenerateVectorError`, not with
`DimensionMismatchError`, so the un-amended claim is false for `query`. -/
theorem claim_C6_counterexample :
    queryChecked [[(1 : ℝ), 0]] [0, 0, 0] 3 (3 / 10) = .error .degenerateVector ∧
      ([0, 0, 0] : Vec).length ≠ dimension [[(1 : ℝ), 0]] ∧
      (Except.error SearchError.degenerateVector :
          Except SearchError (List (ℕ × ℝ))) ≠
        Except.error SearchError.dimensionMismatch := by
  refine ⟨?_, by simp [dimension], by simp⟩
  simp [queryChecked, normSq, dot]

end SVS

namespace SVSF

/-- An IEEE-754-style scalar as the numpy float arithmetic of the script
produces it: a finite value (idealized to an exact real), a signed infinity,
or NaN.  The script normalizes by plain division with no degenerate-vector
guard (src lines 81 and 94-95), so NaN can arise and propagate. -/
inductive FloatVal where
  | fin (x : ℝ)
  | pinf
  | ninf
  | nan

/-- IEEE addition: NaN propagates, opposite infinities give NaN. -/
noncomputable def FloatVal.add : FloatVal → FloatVal → FloatVal
  | .nan, _ => .nan
  | _, .nan => .nan
  | .pinf, .ninf => .nan
  | .ninf, .pinf => .nan
  | .pinf, _ => .pinf
  | _, .pinf => .pinf
  | .ninf, _ => .ninf
  | _, .ninf => .ninf
  | .fin a, .fin b => .fin (a + b)

/-- IEEE multiplication: NaN propagates, infinity times zero gives NaN. -/
noncomputable def FloatVal.mul : FloatVal → FloatVal → FloatVal
  | .nan, _ => .nan
  | _, .nan => .nan
  | .fin a, .fin b => .fin (a * b)
  | .pinf, .pinf => .pinf
  | .pinf, .ninf => .ninf
  | .ninf, .pinf => .ninf
  | .ninf, .ninf => .pinf
  | .pinf, .fin b => if 0 < b then .pinf else if b < 0 then .ninf else .nan
  | .fin a, .pinf => if 0 < a then .pinf else if a < 0 then .ninf else .nan
  | .ninf, .fin b => if 0 < b then .ninf else if b < 0 then .pinf else .nan
  | .fin a, .ninf => if 0 < a then .ninf else if a < 0 then .pinf else .nan

/-- IEEE division (signed zero not modelled): zero over zero gives NaN, a
nonzero finite value over zero gives a signed infinity. -/
noncomputable def FloatVal.div : FloatVal → FloatVal → FloatVal
  | .nan, _ => .nan
  | _, .nan => .nan
  | .fin a, .fin b =>
      if b = 0 then (if a = 0 then .nan else if 0 < a then .pinf else .ninf)
      else .fin (a / b)
  | .fin _, .pinf => .fin 0
  | .fin _, .ninf => .fin 0
  | .pinf, .fin b => if 0 ≤ b then .pinf else .ninf
  | .ninf, .fin b => if 0 ≤ b then .ninf else .pinf
  | .pinf, .pinf => .nan
  | .pinf, .ninf => .nan
  | .ninf, .pinf => .nan
  | .ninf, .ninf => .nan

/-- IEEE square root: NaN for a negative or NaN argument. -/
noncomputable def FloatVal.sqrtVal : FloatVal → FloatVal
  | .nan => .nan
  | .pinf => .pinf
  | .ninf => .nan
  | .fin a => if a < 0 then .nan else .fin (Real.sqrt a)

/-- Dot product over IEEE values (used here for a row's sum of squares,
the quantity under the square root of `np.linalg.norm`). -/
noncomputable def dotF : List FloatVal → List FloatVal → FloatVal
  | [], _ => .fin 0
  | _ :: _, [] => .fin 0
  | a :: as, b :: bs => FloatVal.add (FloatVal.mul a b) (dotF as bs)

/-- Sum of squares of a row. -/
noncomputable def sumSqF (v : List FloatVal) : FloatVal := dotF v v

/-- The row norm `np.linalg.norm(row)` over IEEE values. -/
noncomputable def npNormF (v : List FloatVal) : FloatVal := FloatVal.sqrtVal (sumSqF v)

/-- The script's unguarded normalization (src lines 81 and 94-95): divide
every component by the row norm, whatever that norm is. -/
noncomputable def npNormalize (v : List FloatVal) : List FloatVal :=
  v.map (fun x => FloatVal.div x (npNormF v))

theorem sumSqF_replicate_zero : ∀ D : ℕ,
    sumSqF (List.replicate D (FloatVal.fin 0)) = FloatVal.fin 0
  | 0 => rfl
  | D + 1 => by
    have ih := sumSqF_replicate_zero D
    simp only [sumSqF, List.replicate, dotF] at ih ⊢
    rw [ih]
    show FloatVal.add (.fin (0 * 0)) (.fin 0) = .fin 0
    norm_num [FloatVal.add]

theorem npNormalize_zero (D : ℕ) :
    npNormalize (List.replicate D (FloatVal.fin 0)) = List.replicate D FloatVal.nan := by
  have hnorm : npNormF (List.replicate D (FloatVal.fin 0)) = FloatVal.fin 0 := by
    rw [npNormF, sumSqF_replicate_zero]
    norm_num [FloatVal.sqrtVal]
  rw [npNormalize, hnorm, List.map_replicate]
  norm_num [FloatVal.div]

/-- C1: the script's normalization evaluated at the failing input: the
all-zero vector is divided by its zero norm, which raises nothing and
silently yields NaN in every component — there is no degenerate-vector
guard and no `DegenerateVectorError` anywhere in the script. -/
theorem claim_C1_degenerate_guard_missing :
    npNormalize [FloatVal.fin 0, FloatVal.fin 0] = [FloatVal.nan, FloatVal.nan] :=
  npNormalize_zero 2

end SVSF
